import Mathlib

/-!
Verification of the analysis pipeline of `src/sentiment-analyzer/backend/app.py`
(French sentiment analysis backend).

Strings are modelled as `List Char`; Python floats as `ℚ` with explicit
decimal half-even rounding; Python dicts with the three fixed sentiment keys
as structures with three fields; `collections.Counter` as an association list
in first-insertion order; exceptions (`KeyError`, `HTTPException`) as
`Except Failure`.

Character classes: Python's Unicode-aware `\w` is modelled by
`isWordChar` (ASCII alphanumerics, the underscore, and the Latin-1
Supplement / Latin Extended letter range, which covers the French accented
letters the spec cares about); Python's `\s` by `isPySpace` (the ASCII
whitespace characters).  These are restrictions of the full Unicode tables
to the ranges the repository's French data exercises; none of the claims
depends on characters outside them.

The regex substitutions `re.sub(r"[\r\n]+", " ", ...)` and
`re.sub(r"\s+", " ", ...)` replace each maximal run of matching characters
by one space.  `squashLineBreaks` and `squashSpaces` compute exactly that,
written with a two-character lookahead (the run's single output space is
emitted at the run's last character) so that the recursion is structural
and the functions reduce inside the kernel.
-/

/-- Python `\r` or `\n`: the characters of the `[\r\n]+` regex in `clean_text`. -/
def isLineBreak (c : Char) : Bool :=
  c = '\r' || c = '\n'

/-- Python `\s` (ASCII range): space, tab, newline, carriage return,
vertical tab, form feed. -/
def isPySpace (c : Char) : Bool :=
  c = ' ' || c = '\t' || c = '\n' || c = '\r' || c = '\x0b' || c = '\x0c'

/-- Letters of the Latin-1 Supplement and Latin Extended-A/B blocks
(U+00C0..U+024F without the multiplication and division signs):
the accented letters of French text. -/
def isAccentedLetter (c : Char) : Bool :=
  (0xC0 ≤ c.toNat && c.toNat ≤ 0x24F) && !(c.toNat = 0xD7) && !(c.toNat = 0xF7)

/-- Python `\w` (word character): Unicode alphanumeric or underscore,
restricted to the ranges described in the file header. -/
def isWordChar (c : Char) : Bool :=
  c.isAlphanum || c = '_' || isAccentedLetter c

/-- Straight or curly apostrophe, the `'’` part of the character class kept
by `clean_text`. -/
def isApos (c : Char) : Bool :=
  c = '\'' || c = '’'

/-- The class kept by `re.sub(r"[^\w\s'’]", " ", text)`: word characters,
whitespace, apostrophes. -/
def keptChar (c : Char) : Bool :=
  isWordChar c || isPySpace c || isApos c

/-- One character of the second `re.sub` of `clean_text`: a kept character
stays, anything else becomes a space. -/
def keepOrSpace (c : Char) : Char :=
  if keptChar c then c else ' '

/-- `re.sub(r"[\r\n]+", " ", text)`: each maximal run of line breaks becomes
one space. -/
def squashLineBreaks : List Char → List Char
  | [] => []
  | [c] => if isLineBreak c then [' '] else [c]
  | c :: d :: cs =>
    if isLineBreak c then
      if isLineBreak d then squashLineBreaks (d :: cs)
      else ' ' :: squashLineBreaks (d :: cs)
    else c :: squashLineBreaks (d :: cs)

/-- `re.sub(r"\s+", " ", text)`: each maximal run of whitespace becomes one
space. -/
def squashSpaces : List Char → List Char
  | [] => []
  | [c] => if isPySpace c then [' '] else [c]
  | c :: d :: cs =>
    if isPySpace c then
      if isPySpace d then squashSpaces (d :: cs)
      else ' ' :: squashSpaces (d :: cs)
    else c :: squashSpaces (d :: cs)

/-- Python `str.strip()`: drop leading and trailing whitespace. -/
def stripSpaces (l : List Char) : List Char :=
  ((l.dropWhile isPySpace).reverse.dropWhile isPySpace).reverse

/-- `clean_text` (app.py lines 122-126): collapse line-break runs to a
space, replace every character outside `[\w\s'’]` with a space, collapse
whitespace runs to a single space and strip the ends. -/
def clean_text (l : List Char) : List Char :=
  stripSpaces (squashSpaces ((squashLineBreaks l).map keepOrSpace))

/-- Modelled from the spec's words for claim C2 (a refinement comparison,
not a source translation): "strip all characters that are not alphanumeric,
whitespace, or apostrophe", i.e. delete them outright, with "alphanumeric"
not including the underscore; then collapse whitespace and trim. -/
def specNormalize (l : List Char) : List Char :=
  stripSpaces (squashSpaces (l.filter
    (fun c => (c.isAlphanum || isAccentedLetter c) || isPySpace c || isApos c)))

/-- The amended description of `clean_text` for claim C2: every character
that is not a word character (alphanumeric or underscore), whitespace or an
apostrophe is replaced by a space (not deleted), then whitespace runs are
collapsed and the ends trimmed.  The line-break pre-pass of the source is
redundant and does not appear here. -/
def amendedNormalize (l : List Char) : List Char :=
  stripSpaces (squashSpaces (l.map keepOrSpace))

example : clean_text "a_b.c".toList = "a_b c".toList := by decide
example : specNormalize "a_b.c".toList = "abc".toList := by decide
example : clean_text "  Super\r\nproduit ! ".toList = "Super produit".toList := by decide
example : clean_text "Aucun intérêt, déçu.".toList = "Aucun intérêt déçu".toList := by decide

/-! ## Decimal rounding

Python's `round(x, n)` rounds to the nearest multiple of `10^-n`, ties to
even (modelled over `ℚ`; the repository's floats are idealised as exact
rationals). -/

/-- Round to the nearest integer, ties to the even neighbour. -/
def roundHalfEven (q : ℚ) : ℤ :=
  if Int.fract q < 1/2 then ⌊q⌋
  else if (1:ℚ)/2 < Int.fract q then ⌊q⌋ + 1
  else if ⌊q⌋ % 2 = 0 then ⌊q⌋ else ⌊q⌋ + 1

/-- Python `round(x, 2)`. -/
def round2 (q : ℚ) : ℚ := (roundHalfEven (q * 100) : ℚ) / 100

/-- Python `round(x, 4)`. -/
def round4 (q : ℚ) : ℚ := (roundHalfEven (q * 10000) : ℚ) / 10000

/-! ## Data model -/

/-- A pipeline failure: the `HTTPException` of `build_results` ("aucun texte
valide") or a Python `KeyError` raised by `summarise_results` /
`compute_word_cloud` on a sentiment outside the three fixed keys. -/
inductive Failure where
  | noAnalyzableText
  | keyError (key : String)
deriving DecidableEq

deriving instance DecidableEq for Except

/-- One element of the `processed` list of `build_results`:
`{"text", "clean_text", "sentiment", "score"}`. -/
structure Record where
  text : List Char
  clean_text : List Char
  sentiment : String
  score : ℚ
deriving DecidableEq

/-- The three sentiment keys, in the iteration order of the source's
literals `("positif", "neutre", "négatif")`. -/
def validSentiments : List String := ["positif", "neutre", "négatif"]

/-! ## Counter (insertion-ordered multiset) -/

/-- The keys of a Python dict built by repeated insertion: each element once,
in order of first occurrence. -/
def firstDedup {α : Type} [DecidableEq α] : List α → List α
  | [] => []
  | a :: rest => a :: (firstDedup rest).filter (fun b => b ≠ a)

/-- `collections.Counter(l).items()`: keys in first-occurrence order, each
with its multiplicity in `l`. -/
def counterItems {α : Type} [DecidableEq α] (l : List α) : List (α × ℕ) :=
  (firstDedup l).map (fun a => (a, l.count a))

/-- `Counter.most_common(1)[0]` (as an `Option` for the empty counter): the
entry with the greatest multiplicity, the earliest such entry winning ties,
exactly as CPython's stable descending sort behaves. -/
def mostCommon1 {α : Type} : List (α × ℕ) → Option (α × ℕ)
  | [] => none
  | e :: rest =>
    match mostCommon1 rest with
    | none => some e
    | some b => some (if b.2 > e.2 then b else e)

/-- Stable insertion of one entry into a descending-by-count list: it goes
before the first entry it is ≥, so among equal counts earlier entries stay
first. -/
def insertDesc {α : Type} (x : α × ℕ) : List (α × ℕ) → List (α × ℕ)
  | [] => [x]
  | y :: ys => if x.2 ≥ y.2 then x :: y :: ys else y :: insertDesc x ys

/-- Stable descending sort by count (CPython's `sorted(..., reverse=True)`
on counter items). -/
def sortCountDesc {α : Type} : List (α × ℕ) → List (α × ℕ)
  | [] => []
  | x :: xs => insertDesc x (sortCountDesc xs)

/-- `Counter.most_common(n)`. -/
def mostCommon {α : Type} (n : ℕ) (items : List (α × ℕ)) : List (α × ℕ) :=
  (sortCountDesc items).take n

/-! ## Word cloud (app.py lines 178-195) -/

/-- The character class of the word-cloud token regex `\b[\w']+\b`: word
characters and the straight apostrophe. -/
def wcChar (c : Char) : Bool := isWordChar c || c = '\''

/-- The maximal runs of characters satisfying `p`, in order (two-character
lookahead keeps the recursion structural: a run is closed at its last
character). -/
def runsBy (p : Char → Bool) : List Char → List (List Char)
  | [] => []
  | [c] => if p c then [[c]] else []
  | c :: d :: cs =>
    let r := runsBy p (d :: cs)
    if p c then
      if p d then (c :: r.headD []) :: r.tail
      else [c] :: r
    else r

/-- Strip leading and trailing straight apostrophes: the `\b` anchors of
`\b[\w']+\b` exclude apostrophes at either end of a match (an apostrophe is
not a word character, so no boundary falls beside it). -/
def trimApos (t : List Char) : List Char :=
  ((t.dropWhile (fun c => c = '\'')).reverse.dropWhile (fun c => c = '\'')).reverse

/-- `re.findall(r"\b[\w']+\b", text.lower())`: maximal `[\w']` runs of the
lower-cased text, trimmed of boundary apostrophes, empty results dropped. -/
def wcTokens (l : List Char) : List (List Char) :=
  ((runsBy wcChar (l.map Char.toLower)).map trimApos).filter (fun t => t ≠ [])

/-- The `STOPWORDS` set of app.py lines 35-88 (duplicates of the Python
literal collapse in a set). -/
def STOPWORDS : List (List Char) :=
  ["les", "des", "une", "avec", "pour", "sur", "que", "qui", "dans", "est",
   "sont", "par", "vous", "nous", "elles", "ils", "mais", "pas", "plus",
   "tres", "très", "trop", "cette", "cet", "ces", "au", "aux", "de", "du",
   "la", "le", "un", "et", "ne", "se", "ce", "ses", "son", "sa", "leur",
   "leurs", "comme", "toute", "tout", "tous", "faire", "etre", "être",
   "avoir"].map String.toList

/-- The token filter of `compute_word_cloud`: length > 2 and not a stopword. -/
def wcFilteredTokens (l : List Char) : List (List Char) :=
  (wcTokens l).filter (fun t => 2 < t.length && !(STOPWORDS.contains t))

/-- All kept tokens of the records of sentiment `c`, in record order
(the successive `Counter.update` calls of the source). -/
def tokensFor (c : String) (rs : List Record) : List (List Char) :=
  ((rs.filter (fun r => r.sentiment = c)).map (fun r => wcFilteredTokens r.clean_text)).flatten

/-- The `{"positif": ..., "neutre": ..., "négatif": ...}` dict returned by
`compute_word_cloud`. -/
structure WordCloud where
  positif : List (List Char × ℕ)
  neutre : List (List Char × ℕ)
  negatif : List (List Char × ℕ)
deriving DecidableEq

/-- `compute_word_cloud` (app.py lines 178-195): per-sentiment token
frequencies, top 30; `frequency_by_sentiment[item["sentiment"]]` raises
`KeyError` on the first record whose sentiment is not one of the three
keys. -/
def compute_word_cloud (rs : List Record) : Except Failure WordCloud :=
  match rs.find? (fun r => r.sentiment ∉ validSentiments) with
  | some r => .error (.keyError r.sentiment)
  | none => .ok
      { positif := mostCommon 30 (counterItems (tokensFor "positif" rs)),
        neutre := mostCommon 30 (counterItems (tokensFor "neutre" rs)),
        negatif := mostCommon 30 (counterItems (tokensFor "négatif" rs)) }

/-! ## Aggregator (app.py lines 198-234) -/

/-- One entry of the `distribution` dict: `{"count", "percentage"}`. -/
structure CatStat where
  count : ℕ
  percentage : ℚ
deriving DecidableEq

/-- The summary dict of `summarise_results`, with the three fixed-key dicts
(`distribution`, `mean_scores`) flattened into one field per sentiment. -/
structure Summary where
  total_texts : ℕ
  average_score : ℚ
  dominant_sentiment : Option String
  dist_positif : CatStat
  dist_neutre : CatStat
  dist_negatif : CatStat
  mean_positif : ℚ
  mean_neutre : ℚ
  mean_negatif : ℚ
  overall_polarity : ℚ
  word_cloud : WordCloud
deriving DecidableEq

/-- `scores_by_sentiment[c]` after the accumulation loop: the scores of the
records of sentiment `c`, in record order. -/
def scoresFor (c : String) (rs : List Record) : List ℚ :=
  (rs.filter (fun r => r.sentiment = c)).map Record.score

/-- `mean_by_sentiment[c]`: the rounded mean of `scoresFor`, `0.0` for an
empty list. -/
def meanScore (c : String) (rs : List Record) : ℚ :=
  let vs := scoresFor c rs
  if vs = [] then 0 else round4 (vs.sum / vs.length)

/-- `distribution[c]`: count and percentage (the percentage is `0.0` when
`total` is zero, per the source's conditional). -/
def catStat (c : String) (rs : List Record) : CatStat :=
  { count := (rs.map Record.sentiment).count c,
    percentage :=
      if rs.length = 0 then 0
      else round2 (((rs.map Record.sentiment).count c : ℚ) * 100 / rs.length) }

/-- The `scores_by_sentiment[item["sentiment"]].append(...)` loop: raises
`KeyError` at the first record whose sentiment is not one of the three dict
keys, does nothing observable otherwise. -/
def checkSentiments : List Record → Except Failure Unit
  | [] => .ok ()
  | r :: rest =>
    if r.sentiment ∈ validSentiments then checkSentiments rest
    else .error (.keyError r.sentiment)

/-- `summarise_results` (app.py lines 198-234). -/
def summarise_results (rs : List Record) : Except Failure Summary :=
  match checkSentiments rs with
  | .error e => .error e
  | .ok _ =>
    match compute_word_cloud rs with
    | .error e => .error e
    | .ok wc => .ok
        { total_texts := rs.length,
          average_score :=
            if rs.length = 0 then 0
            else round4 ((rs.map Record.score).sum / rs.length),
          dominant_sentiment :=
            (mostCommon1 (counterItems (rs.map Record.sentiment))).map Prod.fst,
          dist_positif := catStat "positif" rs,
          dist_neutre := catStat "neutre" rs,
          dist_negatif := catStat "négatif" rs,
          mean_positif := meanScore "positif" rs,
          mean_neutre := meanScore "neutre" rs,
          mean_negatif := meanScore "négatif" rs,
          overall_polarity :=
            round4 (if rs.length = 0 then 0
                    else meanScore "positif" rs - meanScore "négatif" rs),
          word_cloud := wc }

/-! ## Classification orchestrator (app.py lines 237-260) -/

/-- `LABEL_TRANSLATIONS` (app.py lines 25-32). -/
def LABEL_TRANSLATIONS : List (String × String) :=
  [("LABEL_0", "négatif"), ("LABEL_1", "neutre"), ("LABEL_2", "positif"),
   ("negative", "négatif"), ("neutral", "neutre"), ("positive", "positif")]

/-- `map_label` (app.py lines 237-238): translate a classifier label,
unmapped labels pass through unchanged. -/
def map_label (label : String) : String :=
  ((LABEL_TRANSLATIONS.find? (fun p => p.1 = label)).map Prod.snd).getD label

/-- The external classifier's output for one text: `PIPELINE(cleaned)[0]`. -/
structure Prediction where
  label : String
  score : ℚ

/-- One iteration of the `build_results` loop (app.py lines 243-257): coerce
a missing cell to the empty string, clean it, skip the row if the cleaned
text is empty (`continue`), otherwise classify and build the result dict. -/
def processCell (classify : List Char → Prediction)
    (cell : Option (List Char)) : Option Record :=
  let raw := cell.getD []
  let cleaned := clean_text raw
  if cleaned = [] then none
  else
    let prediction := classify cleaned
    some { text := raw, clean_text := cleaned,
           sentiment := map_label prediction.label,
           score := round4 prediction.score }

/-- The record `processCell` appends when the cleaned text is non-empty. -/
def recordOfCell (classify : List Char → Prediction)
    (cell : Option (List Char)) : Record :=
  { text := cell.getD [], clean_text := clean_text (cell.getD []),
    sentiment := map_label (classify (clean_text (cell.getD []))).label,
    score := round4 (classify (clean_text (cell.getD []))).score }

/-- `build_results` (app.py lines 241-260), over an abstract classifier and
one table column (`df[column].fillna("")`: a missing cell becomes the empty
string).  Rows whose cleaned text is empty are skipped; an empty result
raises the "aucun texte valide" `HTTPException`. -/
def build_results (classify : List Char → Prediction)
    (col : List (Option (List Char))) : Except Failure (List Record) :=
  let processed := col.filterMap (processCell classify)
  if processed = [] then .error .noAnalyzableText else .ok processed

/-- The analysis part of the `/analyze` handler (app.py lines 313-314):
`build_results` then `summarise_results`; a failure of the first aborts the
request before the aggregator runs. -/
def analyze_endpoint (classify : List Char → Prediction)
    (col : List (Option (List Char))) : Except Failure (List Record × Summary) :=
  match build_results classify col with
  | .error e => .error e
  | .ok results =>
    match summarise_results results with
    | .error e => .error e
    | .ok summary => .ok (results, summary)

/-! ## Column selector (app.py lines 129-149) -/

/-- A pandas cell: missing (`NaN`), a string, or a number. -/
inductive PdCell where
  | na
  | str (s : List Char)
  | num (q : ℚ)

/-- A named dataframe column. -/
structure PdColumn where
  name : String
  values : List PdCell

/-- `astype(str)` on a non-missing cell; how pandas renders a number as text
is irrelevant to every claim, so it stays a parameter `showNum`. -/
def cellToStr (showNum : ℚ → List Char) : PdCell → Option (List Char)
  | .na => none
  | .str s => some s
  | .num q => some (showNum q)

/-- `series.dropna().astype(str).head(200)`. -/
def sampleOf (showNum : ℚ → List Char) (col : PdColumn) : List (List Char) :=
  (col.values.filterMap (cellToStr showNum)).take 200

/-- `len(x.split())`: the number of maximal non-whitespace runs. -/
def wordCount (l : List Char) : ℕ :=
  (runsBy (fun c => !(isPySpace c)) l).length

/-- `pd.api.types.is_string_dtype(series) or series.dtype == object`: in
pandas a column holds string/object dtype exactly when some value is a
string (an all-numeric or all-missing column gets a numeric dtype). -/
def isTextualDtype (col : PdColumn) : Bool :=
  col.values.any (fun v => match v with | .str _ => true | _ => false)

/-- `detect_text_columns` (app.py lines 129-140): keep a column when its
dtype is string/object, its `dropna` sample is non-empty, and the sample's
mean whitespace-token count is at least 2. -/
def detect_text_columns (showNum : ℚ → List Char) (cols : List PdColumn) :
    List String :=
  cols.filterMap (fun col =>
    if isTextualDtype col then
      if sampleOf showNum col = [] then none
      else if (((sampleOf showNum col).map wordCount).sum : ℚ) /
          ((sampleOf showNum col).length : ℚ) ≥ 2 then
        some col.name
      else none
    else none)

/-- `col.lower()` (over the `List Char` data of the string). -/
def lowerStr (s : String) : String := ⟨s.data.map Char.toLower⟩

/-- `priority_keywords` (app.py line 144). -/
def priority_keywords : List String :=
  ["texte", "text", "phrase", "commentaire", "avis", "review", "description"]

/-- `lowered[kw]` for the dict comprehension
`{col.lower(): col for col in columns}`: among the columns whose lower-case
name equals `kw`, the dict keeps the LAST one (later bindings overwrite
earlier ones). -/
def lowedLookup (columns : List String) (kw : String) : Option String :=
  columns.reverse.find? (fun col => lowerStr col = kw)

/-- `choose_default_column` (app.py lines 143-149). -/
def choose_default_column (columns : List String) : Option String :=
  match priority_keywords.findSome? (lowedLookup columns) with
  | some c => some c
  | none => columns.head?

example : map_label "positive" = "positif" := by decide
example : map_label "mixed" = "mixed" := by decide
example : choose_default_column ["id", "commentaire"] = some "commentaire" := by decide
example : choose_default_column ["Text", "TEXT"] = some "TEXT" := by decide
example : choose_default_column [] = none := by decide
example : wcFilteredTokens "c'est très super produit".toList = ["c'est", "super", "produit"].map String.toList := by decide
example :
    (summarise_results
      [{ text := "b".toList, clean_text := "b".toList, sentiment := "négatif", score := 1/2 },
       { text := "a".toList, clean_text := "a".toList, sentiment := "positif", score := 1/2 }]).map
      Summary.dominant_sentiment = .ok (some "négatif") := by decide

/-! ## Lemmas: character classes -/

theorem isPySpace_of_isLineBreak {c : Char} (h : isLineBreak c = true) :
    isPySpace c = true := by
  simp only [isLineBreak, Bool.or_eq_true, decide_eq_true_eq] at h
  rcases h with rfl | rfl <;> decide

theorem keptChar_of_isPySpace {c : Char} (h : isPySpace c = true) :
    keptChar c = true := by
  simp [keptChar, h]

theorem keepOrSpace_of_kept {c : Char} (h : keptChar c = true) :
    keepOrSpace c = c := by
  simp [keepOrSpace, h]

theorem not_isLineBreak_of_not_kept {c : Char} (h : keptChar c = false) :
    isLineBreak c = false := by
  by_contra hlb
  have : isLineBreak c = true := by simpa using hlb
  simp [keptChar_of_isPySpace (isPySpace_of_isLineBreak this)] at h

theorem isLineBreak_keepOrSpace (c : Char) :
    isLineBreak (keepOrSpace c) = isLineBreak c := by
  by_cases h : keptChar c = true
  · rw [keepOrSpace_of_kept h]
  · have h' : keptChar c = false := by simpa using h
    rw [not_isLineBreak_of_not_kept h']
    simp [keepOrSpace, h']
    decide

theorem keptChar_keepOrSpace (c : Char) : keptChar (keepOrSpace c) = true := by
  by_cases h : keptChar c = true
  · rw [keepOrSpace_of_kept h]; exact h
  · have h' : keptChar c = false := by simpa using h
    simp only [keepOrSpace, h', if_false, Bool.false_eq_true]
    decide

theorem isPySpace_space : isPySpace ' ' = true := by decide

theorem keepOrSpace_space : keepOrSpace ' ' = ' ' := by decide

theorem not_isLineBreak_space : isLineBreak ' ' = false := by decide

/-! ## Lemmas: head shapes of the run-collapsing functions -/

theorem squashLineBreaks_cons_lb (d : Char) (cs : List Char)
    (h : isLineBreak d = true) :
    ∃ t, squashLineBreaks (d :: cs) = ' ' :: t := by
  induction cs generalizing d with
  | nil => exact ⟨[], by simp [squashLineBreaks, h]⟩
  | cons e cs ih =>
    by_cases he : isLineBreak e = true
    · obtain ⟨t, ht⟩ := ih e he
      exact ⟨t, by simp [squashLineBreaks, h, he, ht]⟩
    · have he' : isLineBreak e = false := by simpa using he
      exact ⟨squashLineBreaks (e :: cs), by simp [squashLineBreaks, h, he']⟩

theorem squashLineBreaks_cons_not_lb (d : Char) (cs : List Char)
    (h : isLineBreak d = false) :
    ∃ t, squashLineBreaks (d :: cs) = d :: t := by
  cases cs with
  | nil => exact ⟨[], by simp [squashLineBreaks, h]⟩
  | cons e cs => exact ⟨squashLineBreaks (e :: cs), by simp [squashLineBreaks, h]⟩

theorem squashSpaces_cons_not_space (d : Char) (cs : List Char)
    (h : isPySpace d = false) :
    ∃ t, squashSpaces (d :: cs) = d :: t := by
  cases cs with
  | nil => exact ⟨[], by simp [squashSpaces, h]⟩
  | cons e cs => exact ⟨squashSpaces (e :: cs), by simp [squashSpaces, h]⟩

/-! ## Lemmas: the second substitution commutes with the first -/

theorem map_keepOrSpace_squashLineBreaks (l : List Char) :
    (squashLineBreaks l).map keepOrSpace = squashLineBreaks (l.map keepOrSpace) := by
  induction l with
  | nil => rfl
  | cons c m ih =>
    cases m with
    | nil =>
      by_cases h : isLineBreak c = true
      · rw [show squashLineBreaks [c] = [' '] from by simp [squashLineBreaks, h]]
        rw [show [c].map keepOrSpace = [keepOrSpace c] from rfl]
        rw [show squashLineBreaks [keepOrSpace c] = [' '] from by
          simp [squashLineBreaks, isLineBreak_keepOrSpace, h]]
        simp [keepOrSpace_space]
      · have h' : isLineBreak c = false := by simpa using h
        simp [squashLineBreaks, h', isLineBreak_keepOrSpace]
    | cons d cs =>
      by_cases hc : isLineBreak c = true <;>
        by_cases hd : isLineBreak d = true <;>
          simp_all [squashLineBreaks, isLineBreak_keepOrSpace, keepOrSpace_space]

theorem squashSpaces_squashLineBreaks (m : List Char) :
    squashSpaces (squashLineBreaks m) = squashSpaces m := by
  induction m with
  | nil => rfl
  | cons c m ih =>
    cases m with
    | nil =>
      by_cases h : isLineBreak c = true
      · have hs := isPySpace_of_isLineBreak h
        simp [squashLineBreaks, h, squashSpaces, hs, isPySpace_space]
      · have h' : isLineBreak c = false := by simpa using h
        simp [squashLineBreaks, h']
    | cons d cs =>
      by_cases hc : isLineBreak c = true
      · have hcs := isPySpace_of_isLineBreak hc
        by_cases hd : isLineBreak d = true
        · simpa [squashLineBreaks, hc, hd, squashSpaces, hcs,
            isPySpace_of_isLineBreak hd] using ih
        · have hd' : isLineBreak d = false := by simpa using hd
          obtain ⟨t, ht⟩ := squashLineBreaks_cons_not_lb d cs hd'
          by_cases hds : isPySpace d = true
          · rw [show squashLineBreaks (c :: d :: cs) = ' ' :: squashLineBreaks (d :: cs) by
                simp [squashLineBreaks, hc, hd'], ht]
            have h1 : squashSpaces (' ' :: d :: t) = squashSpaces (d :: t) := by
              simp [squashSpaces, hds, isPySpace_space]
            rw [h1, ← ht, ih]
            simp [squashSpaces, hcs, hds]
          · have hds' : isPySpace d = false := by simpa using hds
            rw [show squashLineBreaks (c :: d :: cs) = ' ' :: squashLineBreaks (d :: cs) by
                simp [squashLineBreaks, hc, hd'], ht]
            have h1 : squashSpaces (' ' :: d :: t) = ' ' :: squashSpaces (d :: t) := by
              simp [squashSpaces, hds', isPySpace_space]
            rw [h1, ← ht, ih]
            simp [squashSpaces, hcs, hds']
      · have hc' : isLineBreak c = false := by simpa using hc
        rw [show squashLineBreaks (c :: d :: cs) = c :: squashLineBreaks (d :: cs) by
            simp [squashLineBreaks, hc']]
        by_cases hd : isLineBreak d = true
        · obtain ⟨t, ht⟩ := squashLineBreaks_cons_lb d cs hd
          rw [ht]
          by_cases hcspace : isPySpace c = true
          · have h1 : squashSpaces (c :: ' ' :: t) = squashSpaces (' ' :: t) := by
              simp [squashSpaces, hcspace, isPySpace_space]
            rw [h1, ← ht, ih]
            simp [squashSpaces, hcspace, isPySpace_of_isLineBreak hd]
          · have hcs' : isPySpace c = false := by simpa using hcspace
            have h1 : squashSpaces (c :: ' ' :: t) = c :: squashSpaces (' ' :: t) := by
              simp [squashSpaces, hcs']
            rw [h1, ← ht, ih]
            simp [squashSpaces, hcs']
        · have hd' : isLineBreak d = false := by simpa using hd
          obtain ⟨t, ht⟩ := squashLineBreaks_cons_not_lb d cs hd'
          rw [ht]
          by_cases hcspace : isPySpace c = true <;> by_cases hds : isPySpace d = true
          · have h1 : squashSpaces (c :: d :: t) = squashSpaces (d :: t) := by
              simp [squashSpaces, hcspace, hds]
            rw [h1, ← ht, ih]
            simp [squashSpaces, hcspace, hds]
          · have hds' : isPySpace d = false := by simpa using hds
            have h1 : squashSpaces (c :: d :: t) = ' ' :: squashSpaces (d :: t) := by
              simp [squashSpaces, hcspace, hds']
            rw [h1, ← ht, ih]
            simp [squashSpaces, hcspace, hds']
          · have hcs' : isPySpace c = false := by simpa using hcspace
            have h1 : squashSpaces (c :: d :: t) = c :: squashSpaces (d :: t) := by
              simp [squashSpaces, hcs']
            rw [h1, ← ht, ih]
            simp [squashSpaces, hcs']
          · have hcs' : isPySpace c = false := by simpa using hcspace
            have h1 : squashSpaces (c :: d :: t) = c :: squashSpaces (d :: t) := by
              simp [squashSpaces, hcs']
            rw [h1, ← ht, ih]
            simp [squashSpaces, hcs']

/-! ## Lemmas: identity on already-normalized text -/

theorem squashLineBreaks_eq_self (m : List Char)
    (h : ∀ c ∈ m, isLineBreak c = false) : squashLineBreaks m = m := by
  induction m with
  | nil => rfl
  | cons c m ih =>
    cases m with
    | nil => simp [squashLineBreaks, h c (by simp)]
    | cons d cs =>
      rw [show squashLineBreaks (c :: d :: cs) = c :: squashLineBreaks (d :: cs) from by
        simp [squashLineBreaks, h c (by simp)]]
      rw [ih (fun x hx => h x (List.mem_cons_of_mem _ hx))]

theorem map_keepOrSpace_eq_self (m : List Char)
    (h : ∀ c ∈ m, keptChar c = true) : m.map keepOrSpace = m := by
  induction m with
  | nil => rfl
  | cons c m ih =>
    simp only [List.map_cons, keepOrSpace_of_kept (h c (by simp)),
      ih (fun x hx => h x (List.mem_cons_of_mem _ hx))]

theorem squashSpaces_eq_self (m : List Char)
    (h1 : ∀ c ∈ m, isPySpace c = true → c = ' ')
    (h2 : m.Chain' (fun a b => ¬(isPySpace a = true ∧ isPySpace b = true))) :
    squashSpaces m = m := by
  induction m with
  | nil => rfl
  | cons c m ih =>
    cases m with
    | nil =>
      by_cases h : isPySpace c = true
      · simp [squashSpaces, h, h1 c (by simp) h]
      · have h' : isPySpace c = false := by simpa using h
        simp [squashSpaces, h']
    | cons d cs =>
      have htail := (List.chain'_cons'.mp h2).2
      have ihx := ih (fun x hx => h1 x (List.mem_cons_of_mem _ hx)) htail
      by_cases h : isPySpace c = true
      · have hd : isPySpace d = false := by
          have := (List.chain'_cons'.mp h2).1 d (by simp)
          by_contra hd
          exact this ⟨h, by simpa using hd⟩
        rw [show squashSpaces (c :: d :: cs) = ' ' :: squashSpaces (d :: cs) from by
          simp [squashSpaces, h, hd], ihx, h1 c (by simp) h]
      · have h' : isPySpace c = false := by simpa using h
        rw [show squashSpaces (c :: d :: cs) = c :: squashSpaces (d :: cs) from by
          simp [squashSpaces, h'], ihx]

theorem dropWhile_eq_self_of_head (p : Char → Bool) (l : List Char)
    (h : ∀ c, l.head? = some c → p c = false) : l.dropWhile p = l := by
  cases l with
  | nil => rfl
  | cons c cs => simp [List.dropWhile_cons, h c rfl]

theorem stripSpaces_eq_self (l : List Char)
    (h1 : ∀ c, l.head? = some c → isPySpace c = false)
    (h2 : ∀ c, l.getLast? = some c → isPySpace c = false) :
    stripSpaces l = l := by
  unfold stripSpaces
  rw [dropWhile_eq_self_of_head _ _ h1]
  rw [dropWhile_eq_self_of_head _ _ (by
    intro c hc
    rw [List.head?_reverse] at hc
    exact h2 c hc)]
  exact l.reverse_reverse

/-! ## Lemmas: lengths never grow -/

theorem squashLineBreaks_length_le (m : List Char) :
    (squashLineBreaks m).length ≤ m.length := by
  induction m with
  | nil => simp [squashLineBreaks]
  | cons c m ih =>
    cases m with
    | nil =>
      by_cases h : isLineBreak c = true <;> simp [squashLineBreaks, h]
    | cons d cs =>
      by_cases h : isLineBreak c = true
      · by_cases hd : isLineBreak d = true
        · rw [show squashLineBreaks (c :: d :: cs) = squashLineBreaks (d :: cs) from by
            simp [squashLineBreaks, h, hd]]
          exact le_trans ih (by simp)
        · have hd' : isLineBreak d = false := by simpa using hd
          rw [show squashLineBreaks (c :: d :: cs) = ' ' :: squashLineBreaks (d :: cs) from by
            simp [squashLineBreaks, h, hd']]
          simpa using ih
      · have h' : isLineBreak c = false := by simpa using h
        rw [show squashLineBreaks (c :: d :: cs) = c :: squashLineBreaks (d :: cs) from by
          simp [squashLineBreaks, h']]
        simpa using ih

theorem squashSpaces_length_le (m : List Char) :
    (squashSpaces m).length ≤ m.length := by
  induction m with
  | nil => simp [squashSpaces]
  | cons c m ih =>
    cases m with
    | nil =>
      by_cases h : isPySpace c = true <;> simp [squashSpaces, h]
    | cons d cs =>
      by_cases h : isPySpace c = true
      · by_cases hd : isPySpace d = true
        · rw [show squashSpaces (c :: d :: cs) = squashSpaces (d :: cs) from by
            simp [squashSpaces, h, hd]]
          exact le_trans ih (by simp)
        · have hd' : isPySpace d = false := by simpa using hd
          rw [show squashSpaces (c :: d :: cs) = ' ' :: squashSpaces (d :: cs) from by
            simp [squashSpaces, h, hd']]
          simpa using ih
      · have h' : isPySpace c = false := by simpa using h
        rw [show squashSpaces (c :: d :: cs) = c :: squashSpaces (d :: cs) from by
          simp [squashSpaces, h']]
        simpa using ih

theorem length_dropWhile_le (p : Char → Bool) (l : List Char) :
    (l.dropWhile p).length ≤ l.length :=
  (List.dropWhile_suffix p).sublist.length_le

theorem stripSpaces_length_le (l : List Char) :
    (stripSpaces l).length ≤ l.length := by
  unfold stripSpaces
  calc ((l.dropWhile isPySpace).reverse.dropWhile isPySpace).reverse.length
      = ((l.dropWhile isPySpace).reverse.dropWhile isPySpace).length := by
        simp
    _ ≤ (l.dropWhile isPySpace).reverse.length := length_dropWhile_le _ _
    _ = (l.dropWhile isPySpace).length := by simp
    _ ≤ l.length := length_dropWhile_le _ _

/-! ## Lemmas: shape of normalized output -/

theorem squashSpaces_mem (m : List Char) (x : Char) (hx : x ∈ squashSpaces m) :
    x = ' ' ∨ (x ∈ m ∧ isPySpace x = false) := by
  induction m with
  | nil => simp [squashSpaces] at hx
  | cons c m ih =>
    cases m with
    | nil =>
      by_cases h : isPySpace c = true
      · simp [squashSpaces, h] at hx
        exact Or.inl hx
      · have h' : isPySpace c = false := by simpa using h
        simp [squashSpaces, h'] at hx
        exact Or.inr ⟨by simp [hx], hx ▸ h'⟩
    | cons d cs =>
      by_cases h : isPySpace c = true
      · by_cases hd : isPySpace d = true
        · rw [show squashSpaces (c :: d :: cs) = squashSpaces (d :: cs) from by
            simp [squashSpaces, h, hd]] at hx
          rcases ih hx with h1 | ⟨h1, h2⟩
          · exact Or.inl h1
          · exact Or.inr ⟨List.mem_cons_of_mem _ h1, h2⟩
        · have hd' : isPySpace d = false := by simpa using hd
          rw [show squashSpaces (c :: d :: cs) = ' ' :: squashSpaces (d :: cs) from by
            simp [squashSpaces, h, hd']] at hx
          rcases List.mem_cons.mp hx with h1 | h1
          · exact Or.inl h1
          · rcases ih h1 with h2 | ⟨h2, h3⟩
            · exact Or.inl h2
            · exact Or.inr ⟨List.mem_cons_of_mem _ h2, h3⟩
      · have h' : isPySpace c = false := by simpa using h
        rw [show squashSpaces (c :: d :: cs) = c :: squashSpaces (d :: cs) from by
          simp [squashSpaces, h']] at hx
        rcases List.mem_cons.mp hx with h1 | h1
        · exact Or.inr ⟨by simp [h1], h1 ▸ h'⟩
        · rcases ih h1 with h2 | ⟨h2, h3⟩
          · exact Or.inl h2
          · exact Or.inr ⟨List.mem_cons_of_mem _ h2, h3⟩

theorem squashSpaces_chain' (m : List Char) :
    (squashSpaces m).Chain' (fun a b => ¬(isPySpace a = true ∧ isPySpace b = true)) := by
  induction m with
  | nil => simp [squashSpaces]
  | cons c m ih =>
    cases m with
    | nil =>
      by_cases h : isPySpace c = true <;> simp [squashSpaces, h]
    | cons d cs =>
      by_cases h : isPySpace c = true
      · by_cases hd : isPySpace d = true
        · rw [show squashSpaces (c :: d :: cs) = squashSpaces (d :: cs) from by
            simp [squashSpaces, h, hd]]
          exact ih
        · have hd' : isPySpace d = false := by simpa using hd
          rw [show squashSpaces (c :: d :: cs) = ' ' :: squashSpaces (d :: cs) from by
            simp [squashSpaces, h, hd']]
          obtain ⟨t, ht⟩ := squashSpaces_cons_not_space d cs hd'
          refine List.chain'_cons'.mpr ⟨?_, ih⟩
          intro y hy
          rw [ht] at hy
          simp at hy
          intro hcon
          rw [← hy] at hcon
          simp [hd'] at hcon
      · have h' : isPySpace c = false := by simpa using h
        rw [show squashSpaces (c :: d :: cs) = c :: squashSpaces (d :: cs) from by
          simp [squashSpaces, h']]
        refine List.chain'_cons'.mpr ⟨?_, ih⟩
        intro y _ hcon
        simp [h'] at hcon

theorem head?_dropWhile_false (p : Char → Bool) (l : List Char) (c : Char)
    (h : (l.dropWhile p).head? = some c) : p c = false := by
  induction l with
  | nil => simp at h
  | cons a as ih =>
    by_cases hp : p a = true
    · rw [List.dropWhile_cons, if_pos hp] at h
      exact ih h
    · have hp' : p a = false := by simpa using hp
      rw [List.dropWhile_cons, if_neg (by simp [hp'])] at h
      simp at h
      exact h ▸ hp'

theorem stripSpaces_prefix_dropWhile (l : List Char) :
    stripSpaces l <+: l.dropWhile isPySpace := by
  have h := List.dropWhile_suffix (l := (l.dropWhile isPySpace).reverse) isPySpace
  unfold stripSpaces
  exact List.reverse_suffix.mp (by simpa using h)

theorem stripSpaces_infix_self (l : List Char) : stripSpaces l <:+: l :=
  (stripSpaces_prefix_dropWhile l).isInfix.trans (List.dropWhile_suffix isPySpace).isInfix

theorem stripSpaces_head_not_space (l : List Char) (c : Char)
    (h : (stripSpaces l).head? = some c) : isPySpace c = false := by
  obtain ⟨t, ht⟩ := stripSpaces_prefix_dropWhile l
  cases hs : stripSpaces l with
  | nil => rw [hs] at h; simp at h
  | cons x xs =>
    rw [hs] at h
    simp at h
    rw [hs] at ht
    refine h ▸ head?_dropWhile_false isPySpace l x ?_
    rw [← ht]
    rfl

theorem stripSpaces_getLast_not_space (l : List Char) (c : Char)
    (h : (stripSpaces l).getLast? = some c) : isPySpace c = false := by
  rw [← List.head?_reverse] at h
  have he : (stripSpaces l).reverse = (l.dropWhile isPySpace).reverse.dropWhile isPySpace := by
    unfold stripSpaces
    rw [List.reverse_reverse]
  rw [he] at h
  exact head?_dropWhile_false isPySpace _ c h

/-! ## Canonical shape of `clean_text` output -/

theorem clean_text_mem (l : List Char) (x : Char) (hx : x ∈ clean_text l) :
    keptChar x = true ∧ isLineBreak x = false ∧ (isPySpace x = true → x = ' ') := by
  have hx' : x ∈ squashSpaces ((squashLineBreaks l).map keepOrSpace) :=
    (stripSpaces_infix_self _).sublist.subset hx
  rcases squashSpaces_mem _ x hx' with h | ⟨hM, hS⟩
  · subst h
    exact ⟨by decide, by decide, fun _ => rfl⟩
  · obtain ⟨y, _, hy⟩ := List.mem_map.mp hM
    refine ⟨hy ▸ keptChar_keepOrSpace y, ?_, ?_⟩
    · by_contra hlb
      have : isLineBreak x = true := by simpa using hlb
      rw [isPySpace_of_isLineBreak this] at hS
      exact Bool.true_eq_false.mp hS
    · intro h
      rw [h] at hS
      exact absurd hS (by simp)

theorem clean_text_chain' (l : List Char) :
    (clean_text l).Chain' (fun a b => ¬(isPySpace a = true ∧ isPySpace b = true)) :=
  List.Chain'.infix (squashSpaces_chain' _) (stripSpaces_infix_self _)

theorem clean_text_head_not_space (l : List Char) (c : Char)
    (h : (clean_text l).head? = some c) : isPySpace c = false :=
  stripSpaces_head_not_space (squashSpaces ((squashLineBreaks l).map keepOrSpace)) c h

theorem clean_text_getLast_not_space (l : List Char) (c : Char)
    (h : (clean_text l).getLast? = some c) : isPySpace c = false :=
  stripSpaces_getLast_not_space (squashSpaces ((squashLineBreaks l).map keepOrSpace)) c h

/-! ## Claim theorems: normalization (C2, C6) -/

/-- C2, counterexample.  The claim says `clean_text` *removes* every
character that is not alphanumeric / whitespace / apostrophe.  On
`"a_b.c"` the code instead keeps the underscore (a `\w` character that is
not alphanumeric) and turns the dot into a separating space, so the result
is `"a_b c"`, not the `"abc"` the claim's description produces. -/
theorem clean_text_cex :
    clean_text "a_b.c".toList = "a_b c".toList ∧
    specNormalize "a_b.c".toList = "abc".toList ∧
    clean_text "a_b.c".toList ≠ specNormalize "a_b.c".toList := by decide

/-- C2, amended: for every input string, `clean_text` *replaces* every
character that is not a word character (Unicode alphanumeric or
underscore), whitespace, or an apostrophe (straight or curly) by a space,
then collapses every whitespace run (line breaks included) to a single
space and strips leading and trailing whitespace.  The source's separate
line-break pre-pass is redundant and adds nothing to this description. -/
theorem clean_text_amended_spec (l : List Char) : clean_text l = amendedNormalize l := by
  unfold clean_text amendedNormalize
  rw [map_keepOrSpace_squashLineBreaks, squashSpaces_squashLineBreaks]

/-- C6: normalization is idempotent and never increases length. -/
theorem clean_text_idempotent_and_shorter (l : List Char) :
    clean_text (clean_text l) = clean_text l ∧ (clean_text l).length ≤ l.length := by
  constructor
  · have hmem := fun x hx => clean_text_mem l x hx
    have h1 : squashLineBreaks (clean_text l) = clean_text l :=
      squashLineBreaks_eq_self _ (fun c hc => (hmem c hc).2.1)
    have h2 : (clean_text l).map keepOrSpace = clean_text l :=
      map_keepOrSpace_eq_self _ (fun c hc => (hmem c hc).1)
    have h3 : squashSpaces (clean_text l) = clean_text l :=
      squashSpaces_eq_self _ (fun c hc => (hmem c hc).2.2) (clean_text_chain' l)
    have h4 : stripSpaces (clean_text l) = clean_text l :=
      stripSpaces_eq_self _ (clean_text_head_not_space l) (clean_text_getLast_not_space l)
    show stripSpaces (squashSpaces ((squashLineBreaks (clean_text l)).map keepOrSpace)) =
      clean_text l
    rw [h1, h2, h3, h4]
  · calc (clean_text l).length
        ≤ (squashSpaces ((squashLineBreaks l).map keepOrSpace)).length :=
          stripSpaces_length_le _
      _ ≤ ((squashLineBreaks l).map keepOrSpace).length := squashSpaces_length_le _
      _ = (squashLineBreaks l).length := by simp
      _ ≤ l.length := squashLineBreaks_length_le l

/-! ## Lemmas: `find?` / `findSome?` as first-match searches -/

theorem find?_split {α : Type} (p : α → Bool) (l : List α) (a : α)
    (h : l.find? p = some a) :
    p a = true ∧ ∃ l₁ l₂, l = l₁ ++ a :: l₂ ∧ ∀ x ∈ l₁, p x = false := by
  induction l with
  | nil => simp at h
  | cons b bs ih =>
    by_cases hb : p b = true
    · rw [List.find?_cons_of_pos _ hb] at h
      have hba : b = a := by simpa using h
      subst hba
      exact ⟨hb, [], bs, by simp, by simp⟩
    · have hb' : p b = false := by simpa using hb
      rw [List.find?_cons_of_neg _ (by simp [hb'])] at h
      obtain ⟨hpa, l₁, l₂, hsplit, hfail⟩ := ih h
      exact ⟨hpa, b :: l₁, l₂, by simp [hsplit],
        fun x hx => by
          rcases List.mem_cons.mp hx with rfl | hx'
          · exact hb'
          · exact hfail x hx'⟩

theorem findSome?_of_split {α β : Type} (f : α → Option β) (l₁ l₂ : List α)
    (kw : α) (c : β) (hnone : ∀ k ∈ l₁, f k = none) (hkw : f kw = some c) :
    (l₁ ++ kw :: l₂).findSome? f = some c := by
  induction l₁ with
  | nil => simp [List.findSome?_cons, hkw]
  | cons k ks ih =>
    simp only [List.cons_append, List.findSome?_cons, hnone k (by simp)]
    exact ih (fun x hx => hnone x (List.mem_cons_of_mem _ hx))

/-! ## Lemmas: the lowered-name dict lookup -/

theorem lowedLookup_eq_some (columns : List String) (kw : String) (c : String)
    (h : lowedLookup columns kw = some c) :
    lowerStr c = kw ∧ ∃ l₁ l₂, columns = l₁ ++ c :: l₂ ∧ ∀ x ∈ l₂, lowerStr x ≠ kw := by
  obtain ⟨hp, t₁, t₂, hsplit, hfail⟩ := find?_split _ _ _ h
  refine ⟨by simpa using hp, t₂.reverse, t₁.reverse, ?_, ?_⟩
  · have := congrArg List.reverse hsplit
    simpa [List.reverse_append] using this
  · intro x hx
    have := hfail x (by simpa using hx)
    simpa using this

theorem lowedLookup_eq_none (columns : List String) (kw : String)
    (h : ∀ col ∈ columns, lowerStr col ≠ kw) : lowedLookup columns kw = none := by
  unfold lowedLookup
  rw [List.find?_eq_none]
  intro x hx
  simpa using h x (by simpa using hx)

theorem lowedLookup_isSome (columns : List String) (kw : String)
    (h : ∃ col ∈ columns, lowerStr col = kw) :
    ∃ c, lowedLookup columns kw = some c := by
  obtain ⟨col, hcol, hlow⟩ := h
  have : (columns.reverse.find? (fun col => lowerStr col = kw)).isSome = true :=
    List.find?_isSome.mpr ⟨col, by simpa using hcol, by simpa using hlow⟩
  obtain ⟨c, hc⟩ := Option.isSome_iff_exists.mp this
  exact ⟨c, hc⟩

/-! ## Claim theorems: default column choice (C7) -/

/-- C7, counterexample.  The claim says the *first* candidate whose name
matches a keyword case-insensitively is returned.  With candidates
`["Text", "TEXT"]` both lower to the keyword `"text"`, but the dict
comprehension `{col.lower(): col for col in columns}` lets the later
binding overwrite the earlier one, so the code returns `"TEXT"`, the
*last* matching candidate, while a first-match search finds `"Text"`. -/
theorem choose_default_column_cex :
    choose_default_column ["Text", "TEXT"] = some "TEXT" ∧
    List.find? (fun col => lowerStr col = "text") ["Text", "TEXT"] = some "Text" ∧
    ("TEXT" : String) ≠ "Text" := by decide

/-- C7, amended: `choose_default_column` tries the priority keywords in
order; for the first keyword matched by any candidate (case-insensitively)
it returns the LAST candidate whose lowered name equals that keyword (dict
overwrite semantics); if no keyword matches any candidate it returns the
first candidate; if there are no candidates it returns none. -/
theorem choose_default_column_spec (columns : List String) :
    (choose_default_column columns = none ↔ columns = []) ∧
    (∀ p₁ kw p₂, priority_keywords = p₁ ++ kw :: p₂ →
      (∃ col ∈ columns, lowerStr col = kw) →
      (∀ k ∈ p₁, ∀ col ∈ columns, lowerStr col ≠ k) →
      ∃ c l₁ l₂, choose_default_column columns = some c ∧ lowerStr c = kw ∧
        columns = l₁ ++ c :: l₂ ∧ ∀ x ∈ l₂, lowerStr x ≠ kw) ∧
    ((∀ k ∈ priority_keywords, ∀ col ∈ columns, lowerStr col ≠ k) →
      choose_default_column columns = columns.head?) := by
  refine ⟨?_, ?_, ?_⟩
  · constructor
    · intro h
      unfold choose_default_column at h
      cases hf : priority_keywords.findSome? (lowedLookup columns) with
      | some c => rw [hf] at h; exact absurd h (by simp)
      | none =>
        rw [hf] at h
        cases columns with
        | nil => rfl
        | cons a as => exact absurd h (by simp)
    · intro h
      subst h
      decide
  · intro p₁ kw p₂ hp hex hnone
    obtain ⟨c, hc⟩ := lowedLookup_isSome columns kw hex
    have hfs : priority_keywords.findSome? (lowedLookup columns) = some c := by
      rw [hp]
      exact findSome?_of_split _ p₁ p₂ kw c
        (fun k hk => lowedLookup_eq_none columns k (hnone k hk)) hc
    obtain ⟨hlow, l₁, l₂, hsplit, hfail⟩ := lowedLookup_eq_some columns kw c hc
    refine ⟨c, l₁, l₂, ?_, hlow, hsplit, hfail⟩
    unfold choose_default_column
    rw [hfs]
  · intro h
    have hfs : priority_keywords.findSome? (lowedLookup columns) = none := by
      rw [List.findSome?_eq_none_iff]
      exact fun kw hkw => lowedLookup_eq_none columns kw (h kw hkw)
    unfold choose_default_column
    rw [hfs]

/-! ## Lemmas: the classification loop -/

theorem processCell_eq (classify : List Char → Prediction)
    (cell : Option (List Char)) :
    processCell classify cell =
      if clean_text (cell.getD []) = [] then none
      else some (recordOfCell classify cell) := rfl

theorem build_processed_eq (classify : List Char → Prediction)
    (col : List (Option (List Char))) :
    col.filterMap (processCell classify) =
      (col.filter (fun cell => clean_text (cell.getD []) ≠ [])).map
        (recordOfCell classify) := by
  induction col with
  | nil => rfl
  | cons c cs ih =>
    by_cases hc : clean_text (c.getD []) = [] <;>
      simp [List.filterMap_cons, List.filter_cons, processCell_eq, hc, ih]

theorem build_results_eq (classify : List Char → Prediction)
    (col : List (Option (List Char))) :
    build_results classify col =
      if col.filterMap (processCell classify) = [] then Except.error Failure.noAnalyzableText
      else Except.ok (col.filterMap (processCell classify)) := rfl

theorem build_processed_empty_iff (classify : List Char → Prediction)
    (col : List (Option (List Char))) :
    col.filterMap (processCell classify) = [] ↔
      ∀ cell ∈ col, clean_text (cell.getD []) = [] := by
  rw [List.filterMap_eq_nil_iff]
  constructor
  · intro h cell hc
    have := h cell hc
    rw [processCell_eq] at this
    by_contra hne
    rw [if_neg hne] at this
    exact absurd this (by simp)
  · intro h cell hc
    rw [processCell_eq, if_pos (h cell hc)]

/-! ## Claim theorems: classification orchestrator (C4, C5) -/

/-- C4: when `build_results` succeeds, its records are exactly one per row
whose cleaned cell text is non-empty (missing cells coerced to the empty
string first), in row order; the record count equals the number of such
rows and never exceeds the row count. -/
theorem build_results_spec (classify : List Char → Prediction)
    (col : List (Option (List Char))) (rs : List Record)
    (h : build_results classify col = Except.ok rs) :
    rs = (col.filter (fun cell => clean_text (cell.getD []) ≠ [])).map
        (recordOfCell classify) ∧
    rs.length = (col.filter (fun cell => clean_text (cell.getD []) ≠ [])).length ∧
    rs.length ≤ col.length := by
  rw [build_results_eq] at h
  by_cases hemp : col.filterMap (processCell classify) = []
  · rw [if_pos hemp] at h
    exact absurd h (by simp)
  · rw [if_neg hemp] at h
    have hrs : rs = col.filterMap (processCell classify) := by
      have := h
      simp only [Except.ok.injEq] at this
      exact this.symm
    subst hrs
    rw [build_processed_eq]
    refine ⟨rfl, by simp, ?_⟩
    simp only [List.length_map]
    exact List.length_filter_le _ _

/-- C4, witness: a two-row column whose second cell is missing yields one
record. -/
theorem build_results_spec_witness :
    ∃ rs, build_results (fun _ => Prediction.mk "positive" ((9:ℚ)/10))
        [some "hi".toList, none] = Except.ok rs ∧ rs.length ≤ 2 := by
  have h := build_results_spec (fun _ => Prediction.mk "positive" ((9:ℚ)/10))
    [some "hi".toList, none] _ rfl
  exact ⟨_, rfl, by simpa using h.2.2⟩

/-- C5: `build_results` fails with the no-analyzable-text error exactly when
every cell of the column is empty after normalization (equivalently, the
record list would be empty); a success is a non-empty record list; and on
that failure the `/analyze` pipeline aborts with the same error, the
aggregator never producing a summary. -/
theorem build_results_error_spec (classify : List Char → Prediction)
    (col : List (Option (List Char))) :
    (build_results classify col = Except.error Failure.noAnalyzableText ↔
      ∀ cell ∈ col, clean_text (cell.getD []) = []) ∧
    (∀ rs, build_results classify col = Except.ok rs → rs ≠ []) ∧
    (∀ e, build_results classify col = Except.error e →
      e = Failure.noAnalyzableText ∧
      analyze_endpoint classify col = Except.error Failure.noAnalyzableText) := by
  by_cases hemp : col.filterMap (processCell classify) = []
  · have hb : build_results classify col = Except.error Failure.noAnalyzableText := by
      rw [build_results_eq, if_pos hemp]
    refine ⟨?_, ?_, ?_⟩
    · simp only [hb, true_iff]
      exact (build_processed_empty_iff classify col).mp hemp
    · intro rs hrs
      rw [hb] at hrs
      exact absurd hrs (by simp)
    · intro e he
      rw [hb] at he
      have : Failure.noAnalyzableText = e := by simpa using he
      subst this
      refine ⟨rfl, ?_⟩
      unfold analyze_endpoint
      rw [hb]
  · have hb : build_results classify col =
        Except.ok (col.filterMap (processCell classify)) := by
      rw [build_results_eq, if_neg hemp]
    refine ⟨?_, ?_, ?_⟩
    · rw [hb]
      simp only [iff_iff_implies_and_implies]
      constructor
      · intro h
        exact absurd h (by simp)
      · intro h
        exact absurd ((build_processed_empty_iff classify col).mpr h) hemp
    · intro rs hrs
      rw [hb] at hrs
      have : col.filterMap (processCell classify) = rs := by simpa using hrs
      subst this
      exact hemp
    · intro e he
      rw [hb] at he
      exact absurd he (by simp)

/-! ## Lemmas: totality of the aggregator -/

theorem checkSentiments_eq_ok_iff (rs : List Record) :
    checkSentiments rs = Except.ok () ↔ ∀ r ∈ rs, r.sentiment ∈ validSentiments := by
  induction rs with
  | nil => simp [checkSentiments]
  | cons r rest ih =>
    by_cases h : r.sentiment ∈ validSentiments
    · rw [show checkSentiments (r :: rest) = checkSentiments rest from by
        simp [checkSentiments, h]]
      rw [ih]
      constructor
      · intro hall x hx
        rcases List.mem_cons.mp hx with rfl | hx'
        · exact h
        · exact hall x hx'
      · intro hall x hx
        exact hall x (List.mem_cons_of_mem _ hx)
    · rw [show checkSentiments (r :: rest) = Except.error (Failure.keyError r.sentiment)
        from by simp [checkSentiments, h]]
      simp only [iff_iff_implies_and_implies]
      constructor
      · intro hx
        exact absurd hx (by simp)
      · intro hall
        exact absurd (hall r (by simp)) h

theorem checkSentiments_error (rs : List Record)
    (h : ∃ r ∈ rs, r.sentiment ∉ validSentiments) :
    ∃ k, checkSentiments rs = Except.error (Failure.keyError k) ∧ k ∉ validSentiments := by
  induction rs with
  | nil => simp at h
  | cons r rest ih =>
    by_cases hr : r.sentiment ∈ validSentiments
    · rw [show checkSentiments (r :: rest) = checkSentiments rest from by
        simp [checkSentiments, hr]]
      refine ih ?_
      obtain ⟨x, hx, hxv⟩ := h
      rcases List.mem_cons.mp hx with rfl | hx'
      · exact absurd hr hxv
      · exact ⟨x, hx', hxv⟩
    · exact ⟨r.sentiment, by simp [checkSentiments, hr], hr⟩

theorem compute_word_cloud_ok (rs : List Record)
    (h : ∀ r ∈ rs, r.sentiment ∈ validSentiments) :
    compute_word_cloud rs = Except.ok
      { positif := mostCommon 30 (counterItems (tokensFor "positif" rs)),
        neutre := mostCommon 30 (counterItems (tokensFor "neutre" rs)),
        negatif := mostCommon 30 (counterItems (tokensFor "négatif" rs)) } := by
  unfold compute_word_cloud
  rw [List.find?_eq_none.mpr (by
    intro r hr
    simpa using h r hr)]

theorem summarise_results_ok (rs : List Record)
    (h : ∀ r ∈ rs, r.sentiment ∈ validSentiments) :
    summarise_results rs = Except.ok
      { total_texts := rs.length,
        average_score :=
          if rs.length = 0 then 0
          else round4 ((rs.map Record.score).sum / rs.length),
        dominant_sentiment :=
          (mostCommon1 (counterItems (rs.map Record.sentiment))).map Prod.fst,
        dist_positif := catStat "positif" rs,
        dist_neutre := catStat "neutre" rs,
        dist_negatif := catStat "négatif" rs,
        mean_positif := meanScore "positif" rs,
        mean_neutre := meanScore "neutre" rs,
        mean_negatif := meanScore "négatif" rs,
        overall_polarity :=
          round4 (if rs.length = 0 then 0
                  else meanScore "positif" rs - meanScore "négatif" rs),
        word_cloud :=
          { positif := mostCommon 30 (counterItems (tokensFor "positif" rs)),
            neutre := mostCommon 30 (counterItems (tokensFor "neutre" rs)),
            negatif := mostCommon 30 (counterItems (tokensFor "négatif" rs)) } } := by
  unfold summarise_results
  rw [(checkSentiments_eq_ok_iff rs).mpr h, compute_word_cloud_ok rs h]

/-! ## Claim theorems: aggregator totality (C10) -/

/-- C10: `summarise_results` raises a `KeyError` exactly when some record
carries a sentiment outside the three-value enumeration (unmapped labels
pass through `map_label` unchanged and reach the aggregator), and it
returns a summary exactly when every record's sentiment is one of the
three enumerated values. -/
theorem summarise_totality_spec (rs : List Record) :
    ((∃ r ∈ rs, r.sentiment ∉ validSentiments) ↔
      ∃ k, summarise_results rs = Except.error (Failure.keyError k) ∧
        k ∉ validSentiments) ∧
    ((∀ r ∈ rs, r.sentiment ∈ validSentiments) ↔
      ∃ s, summarise_results rs = Except.ok s) := by
  constructor
  · constructor
    · intro h
      obtain ⟨k, hk, hkv⟩ := checkSentiments_error rs h
      refine ⟨k, ?_, hkv⟩
      unfold summarise_results
      rw [hk]
    · rintro ⟨k, hk, _⟩
      by_contra hall
      push_neg at hall
      have : summarise_results rs = Except.ok _ := summarise_results_ok rs hall
      rw [this] at hk
      exact absurd hk (by simp)
  · constructor
    · intro h
      exact ⟨_, summarise_results_ok rs h⟩
    · rintro ⟨s, hs⟩
      by_contra hall
      push_neg at hall
      obtain ⟨k, hk, _⟩ := checkSentiments_error rs
        ⟨hall.choose, hall.choose_spec.1, hall.choose_spec.2⟩
      unfold summarise_results at hs
      rw [hk] at hs
      exact absurd hs (by simp)

/-! ## Claim theorems: distribution invariants (C3) -/

theorem count_sentiments_three (rs : List Record)
    (h : ∀ r ∈ rs, r.sentiment ∈ validSentiments) :
    (rs.map Record.sentiment).count "positif" +
      (rs.map Record.sentiment).count "neutre" +
      (rs.map Record.sentiment).count "négatif" = rs.length := by
  have pn : ¬(("positif" : String) = "neutre") := by decide
  have pg : ¬(("positif" : String) = "négatif") := by decide
  have np : ¬(("neutre" : String) = "positif") := by decide
  have ng : ¬(("neutre" : String) = "négatif") := by decide
  have gp : ¬(("négatif" : String) = "positif") := by decide
  have gn : ¬(("négatif" : String) = "neutre") := by decide
  induction rs with
  | nil => simp
  | cons r rest ih =>
    have hr := h r (by simp)
    have ihx := ih (fun x hx => h x (List.mem_cons_of_mem _ hx))
    simp only [List.map_cons, List.count_cons, beq_iff_eq, List.length_cons]
    simp only [validSentiments, List.mem_cons, List.not_mem_nil, or_false] at hr
    rcases hr with h1 | h1 | h1 <;> simp [h1, pn, pg, np, ng, gp, gn] <;> omega

/-- C3: every summary's three distribution counts sum to the total, the
total is the record count, each category (also an absent one) appears with
its exact record count, and for a non-empty record list each percentage is
`round2(count*100/total)`. -/
theorem summarise_distribution_spec (rs : List Record)
    (hv : ∀ r ∈ rs, r.sentiment ∈ validSentiments) :
    ∃ s, summarise_results rs = Except.ok s ∧
      s.dist_positif.count + s.dist_neutre.count + s.dist_negatif.count
        = s.total_texts ∧
      s.total_texts = rs.length ∧
      s.dist_positif.count = (rs.map Record.sentiment).count "positif" ∧
      s.dist_neutre.count = (rs.map Record.sentiment).count "neutre" ∧
      s.dist_negatif.count = (rs.map Record.sentiment).count "négatif" ∧
      (s.total_texts ≠ 0 →
        s.dist_positif.percentage =
          round2 ((s.dist_positif.count : ℚ) * 100 / s.total_texts) ∧
        s.dist_neutre.percentage =
          round2 ((s.dist_neutre.count : ℚ) * 100 / s.total_texts) ∧
        s.dist_negatif.percentage =
          round2 ((s.dist_negatif.count : ℚ) * 100 / s.total_texts)) := by
  refine ⟨_, summarise_results_ok rs hv, ?_, rfl, rfl, rfl, rfl, ?_⟩
  · exact count_sentiments_three rs hv
  · intro h
    refine ⟨?_, ?_, ?_⟩ <;>
      simp only [catStat] <;> rw [if_neg (by simpa using h)]

/-- C3, witness: one positive and one negative record. -/
theorem summarise_distribution_spec_witness :
    ∃ s, summarise_results
        [{ text := "a".toList, clean_text := "a".toList,
           sentiment := "positif", score := 1/2 },
         { text := "b".toList, clean_text := "b".toList,
           sentiment := "négatif", score := 1/2 }] = Except.ok s ∧
      s.dist_positif.count + s.dist_neutre.count + s.dist_negatif.count
        = s.total_texts := by
  obtain ⟨s, hok, hsum, _⟩ := summarise_distribution_spec
    [{ text := "a".toList, clean_text := "a".toList,
       sentiment := "positif", score := 1/2 },
     { text := "b".toList, clean_text := "b".toList,
       sentiment := "négatif", score := 1/2 }] (by decide)
  exact ⟨s, hok, hsum⟩

/-! ## Lemmas: rounding bounds -/

theorem roundHalfEven_dist (q : ℚ) :
    q - 1/2 ≤ (roundHalfEven q : ℚ) ∧ (roundHalfEven q : ℚ) ≤ q + 1/2 := by
  have hf1 : 0 ≤ Int.fract q := Int.fract_nonneg q
  have hf2 : Int.fract q < 1 := Int.fract_lt_one q
  have hq : (⌊q⌋ : ℚ) = q - Int.fract q := by
    rw [Int.fract]
    ring
  unfold roundHalfEven
  split_ifs with h1 h2 h3 <;> constructor <;> push_cast <;> rw [hq] <;> linarith

theorem roundHalfEven_le_int (q : ℚ) (n : ℤ) (h : q ≤ (n : ℚ)) :
    roundHalfEven q ≤ n := by
  have hd := (roundHalfEven_dist q).2
  have hlt : (roundHalfEven q : ℚ) < ((n + 1 : ℤ) : ℚ) := by
    push_cast
    linarith
  have := Int.cast_lt.mp hlt
  omega

theorem int_le_roundHalfEven (q : ℚ) (n : ℤ) (h : (n : ℚ) ≤ q) :
    n ≤ roundHalfEven q := by
  have hd := (roundHalfEven_dist q).1
  have hlt : ((n - 1 : ℤ) : ℚ) < (roundHalfEven q : ℚ) := by
    push_cast
    linarith
  have := Int.cast_lt.mp hlt
  omega

theorem round4_le_one (q : ℚ) (h : q ≤ 1) : round4 q ≤ 1 := by
  unfold round4
  rw [div_le_one (by norm_num)]
  have := roundHalfEven_le_int (q * 10000) 10000 (by push_cast; linarith)
  exact_mod_cast this

theorem neg_one_le_round4 (q : ℚ) (h : -1 ≤ q) : -1 ≤ round4 q := by
  unfold round4
  rw [le_div_iff₀ (by norm_num)]
  have := int_le_roundHalfEven (q * 10000) (-10000) (by push_cast; linarith)
  calc (-1 : ℚ) * 10000 = ((-10000 : ℤ) : ℚ) := by norm_num
    _ ≤ (roundHalfEven (q * 10000) : ℚ) := by exact_mod_cast this

theorem round4_nonneg (q : ℚ) (h : 0 ≤ q) : 0 ≤ round4 q := by
  unfold round4
  have := int_le_roundHalfEven (q * 10000) 0 (by push_cast; linarith)
  positivity

/-! ## Lemmas: mean-confidence bounds -/

theorem sum_mem_bounds (vs : List ℚ) (h : ∀ v ∈ vs, 0 ≤ v ∧ v ≤ 1) :
    0 ≤ vs.sum ∧ vs.sum ≤ (vs.length : ℚ) := by
  induction vs with
  | nil => simp
  | cons v rest ih =>
    have hv := h v (by simp)
    have ihx := ih (fun x hx => h x (List.mem_cons_of_mem _ hx))
    simp only [List.sum_cons, List.length_cons]
    push_cast
    constructor <;> linarith [ihx.1, ihx.2, hv.1, hv.2]

theorem meanScore_bounds (c : String) (rs : List Record)
    (h : ∀ r ∈ rs, 0 ≤ r.score ∧ r.score ≤ 1) :
    0 ≤ meanScore c rs ∧ meanScore c rs ≤ 1 := by
  unfold meanScore
  by_cases hv : scoresFor c rs = []
  · simp [hv]
  · simp only [hv, if_false]
    have hmem : ∀ v ∈ scoresFor c rs, 0 ≤ v ∧ v ≤ 1 := by
      intro v hvmem
      obtain ⟨r, hr, rfl⟩ := List.mem_map.mp hvmem
      exact h r (List.mem_of_mem_filter hr)
    have hb := sum_mem_bounds _ hmem
    have hlen : 0 < ((scoresFor c rs).length : ℚ) := by
      have := List.length_pos.mpr hv
      exact_mod_cast this
    constructor
    · exact round4_nonneg _ (div_nonneg hb.1 (le_of_lt hlen))
    · exact round4_le_one _ ((div_le_one hlen).mpr hb.2)

/-! ## Claim theorems: overall polarity (C9) -/

/-- C9: for every non-empty valid record list with confidences in `[0,1]`,
the summary's polarity is `round4(mean_positif - mean_negatif)` where each
per-category mean is the rounded arithmetic mean of that category's
confidences, `0.0` for an absent category; and the polarity lies in
`[-1, 1]`. -/
theorem summarise_polarity_spec (rs : List Record)
    (hv : ∀ r ∈ rs, r.sentiment ∈ validSentiments)
    (hne : rs ≠ [])
    (hs : ∀ r ∈ rs, 0 ≤ r.score ∧ r.score ≤ 1) :
    ∃ s, summarise_results rs = Except.ok s ∧
      s.mean_positif = meanScore "positif" rs ∧
      s.mean_negatif = meanScore "négatif" rs ∧
      (scoresFor "positif" rs = [] → s.mean_positif = 0) ∧
      (scoresFor "positif" rs ≠ [] → s.mean_positif =
        round4 ((scoresFor "positif" rs).sum / ((scoresFor "positif" rs).length : ℚ))) ∧
      (scoresFor "négatif" rs = [] → s.mean_negatif = 0) ∧
      (scoresFor "négatif" rs ≠ [] → s.mean_negatif =
        round4 ((scoresFor "négatif" rs).sum / ((scoresFor "négatif" rs).length : ℚ))) ∧
      s.overall_polarity = round4 (s.mean_positif - s.mean_negatif) ∧
      -1 ≤ s.overall_polarity ∧ s.overall_polarity ≤ 1 := by
  have hlen : rs.length ≠ 0 := fun h => hne (List.length_eq_zero.mp h)
  have hpol : round4 (if rs.length = 0 then 0
      else meanScore "positif" rs - meanScore "négatif" rs) =
      round4 (meanScore "positif" rs - meanScore "négatif" rs) := by
    rw [if_neg hlen]
  have hpb := meanScore_bounds "positif" rs hs
  have hnb := meanScore_bounds "négatif" rs hs
  refine ⟨_, summarise_results_ok rs hv, rfl, rfl, ?_, ?_, ?_, ?_, ?_, ?_, ?_⟩
  · intro h
    show meanScore "positif" rs = 0
    simp [meanScore, h]
  · intro h
    show meanScore "positif" rs = _
    simp [meanScore, h]
  · intro h
    show meanScore "négatif" rs = 0
    simp [meanScore, h]
  · intro h
    show meanScore "négatif" rs = _
    simp [meanScore, h]
  · exact hpol
  · show -1 ≤ round4 (if rs.length = 0 then 0
      else meanScore "positif" rs - meanScore "négatif" rs)
    rw [hpol]
    exact neg_one_le_round4 _ (by linarith [hpb.1, hpb.2, hnb.1, hnb.2])
  · show round4 (if rs.length = 0 then 0
      else meanScore "positif" rs - meanScore "négatif" rs) ≤ 1
    rw [hpol]
    exact round4_le_one _ (by linarith [hpb.1, hpb.2, hnb.1, hnb.2])

/-- C9, witness: a positive record of confidence 19/20 and a negative one
of confidence 4/5. -/
theorem summarise_polarity_spec_witness :
    ∃ s, summarise_results
        [{ text := "a".toList, clean_text := "a".toList,
           sentiment := "positif", score := 19/20 },
         { text := "b".toList, clean_text := "b".toList,
           sentiment := "négatif", score := 4/5 }] = Except.ok s ∧
      -1 ≤ s.overall_polarity ∧ s.overall_polarity ≤ 1 := by
  obtain ⟨s, hok, -, -, -, -, -, -, -, hlo, hhi⟩ := summarise_polarity_spec
    [{ text := "a".toList, clean_text := "a".toList,
       sentiment := "positif", score := 19/20 },
     { text := "b".toList, clean_text := "b".toList,
       sentiment := "négatif", score := 4/5 }]
    (by decide) (by simp)
    (by
      intro r hr
      simp only [List.mem_cons, List.not_mem_nil, or_false] at hr
      rcases hr with rfl | rfl <;> constructor <;> norm_num)
  exact ⟨s, hok, hlo, hhi⟩

/-! ## Lemmas: column detection -/

theorem cellToStr_eq_none (showNum : ℚ → List Char) (v : PdCell) :
    cellToStr showNum v = none ↔ v = PdCell.na := by
  cases v <;> simp [cellToStr]

theorem sampleOf_eq_nil_iff (showNum : ℚ → List Char) (col : PdColumn) :
    sampleOf showNum col = [] ↔ ∀ v ∈ col.values, v = PdCell.na := by
  unfold sampleOf
  rw [List.take_eq_nil_iff]
  constructor
  · intro h
    rcases h with h | h
    · exact absurd h (by norm_num)
    · intro v hv
      exact (cellToStr_eq_none showNum v).mp (List.filterMap_eq_nil_iff.mp h v hv)
  · intro h
    right
    exact List.filterMap_eq_nil_iff.mpr
      (fun v hv => (cellToStr_eq_none showNum v).mpr (h v hv))

theorem filterMap_if_guard {α β : Type} (p : α → Prop) [DecidablePred p]
    (g : α → β) (l : List α) :
    l.filterMap (fun a => if p a then some (g a) else none) =
      (l.filter (fun a => p a)).map g := by
  induction l with
  | nil => rfl
  | cons a l ih =>
    by_cases h : p a <;> simp [List.filterMap_cons, List.filter_cons, h, ih]

/-- The three-condition guard a column must pass in `detect_text_columns`. -/
def isTextCandidate (showNum : ℚ → List Char) (col : PdColumn) : Prop :=
  isTextualDtype col = true ∧ sampleOf showNum col ≠ [] ∧
    (((sampleOf showNum col).map wordCount).sum : ℚ) /
      ((sampleOf showNum col).length : ℚ) ≥ 2

instance (showNum : ℚ → List Char) (col : PdColumn) :
    Decidable (isTextCandidate showNum col) := by
  unfold isTextCandidate
  infer_instance

theorem detectCell_eq (showNum : ℚ → List Char) (col : PdColumn) :
    (if isTextualDtype col then
      if sampleOf showNum col = [] then none
      else if (((sampleOf showNum col).map wordCount).sum : ℚ) /
          ((sampleOf showNum col).length : ℚ) ≥ 2 then
        some col.name
      else none
    else none) =
    (if isTextCandidate showNum col then some col.name else none) := by
  unfold isTextCandidate
  by_cases h1 : isTextualDtype col = true
  · by_cases h2 : sampleOf showNum col = []
    · rw [if_pos h1, if_pos h2, if_neg (fun hc => hc.2.1 h2)]
    · by_cases h3 : (((sampleOf showNum col).map wordCount).sum : ℚ) /
          ((sampleOf showNum col).length : ℚ) ≥ 2
      · rw [if_pos h1, if_neg h2, if_pos h3, if_pos ⟨h1, h2, h3⟩]
      · rw [if_pos h1, if_neg h2, if_neg h3, if_neg (fun hc => h3 hc.2.2)]
  · rw [if_neg h1, if_neg (fun hc => h1 hc.1)]

theorem detect_filter_eq (showNum : ℚ → List Char) (cols : List PdColumn) :
    detect_text_columns showNum cols =
      (cols.filter (fun col => isTextCandidate showNum col)).map PdColumn.name := by
  unfold detect_text_columns
  rw [show (fun col : PdColumn =>
      if isTextualDtype col then
        if sampleOf showNum col = [] then none
        else if (((sampleOf showNum col).map wordCount).sum : ℚ) /
            ((sampleOf showNum col).length : ℚ) ≥ 2 then
          some col.name
        else none
      else none) =
      (fun col => if isTextCandidate showNum col then some col.name else none)
    from funext (detectCell_eq showNum)]
  exact filterMap_if_guard _ _ cols

/-! ## Claim theorems: text-column detection (C8) -/

/-- C8: `detect_text_columns` returns exactly the columns (names, in table
order) whose values include a string (the string/object-dtype test), that
have at least one non-missing value, and whose mean whitespace-token count
over the first 200 non-missing values (as strings) is at least 2. -/
theorem detect_text_columns_spec (showNum : ℚ → List Char) (cols : List PdColumn) :
    detect_text_columns showNum cols =
      (cols.filter (fun col => isTextCandidate showNum col)).map PdColumn.name ∧
    ∀ name, name ∈ detect_text_columns showNum cols ↔
      ∃ col ∈ cols, col.name = name ∧ isTextualDtype col = true ∧
        (∃ v ∈ col.values, v ≠ PdCell.na) ∧
        (2:ℚ) ≤ (((sampleOf showNum col).map wordCount).sum : ℚ) /
          ((sampleOf showNum col).length : ℚ) := by
  refine ⟨detect_filter_eq showNum cols, ?_⟩
  intro name
  rw [detect_filter_eq showNum cols]
  simp only [List.mem_map, List.mem_filter, decide_eq_true_eq]
  constructor
  · rintro ⟨col, ⟨hmem, ht, hne, hmean⟩, hname⟩
    refine ⟨col, hmem, hname, ht, ?_, hmean⟩
    by_contra hall
    push_neg at hall
    exact hne ((sampleOf_eq_nil_iff showNum col).mpr hall)
  · rintro ⟨col, hmem, hname, ht, hval, hmean⟩
    refine ⟨col, ⟨hmem, ht, ?_, hmean⟩, hname⟩
    obtain ⟨v, hv, hvne⟩ := hval
    intro hemp
    exact hvne ((sampleOf_eq_nil_iff showNum col).mp hemp v hv)

/-! ## Lemmas: the insertion-ordered counter -/

theorem mem_firstDedup {α : Type} [DecidableEq α] (l : List α) (b : α) :
    b ∈ firstDedup l ↔ b ∈ l := by
  induction l with
  | nil => simp [firstDedup]
  | cons a rest ih =>
    simp only [firstDedup, List.mem_cons, List.mem_filter, decide_eq_true_eq, ih]
    constructor
    · rintro (rfl | ⟨h, _⟩)
      · exact Or.inl rfl
      · exact Or.inr h
    · rintro (rfl | h)
      · exact Or.inl rfl
      · by_cases hba : b = a
        · exact Or.inl hba
        · exact Or.inr ⟨h, hba⟩

theorem firstDedup_pairwise {α : Type} [DecidableEq α] (l : List α) :
    (firstDedup l).Pairwise
      (fun a b => l.findIdx (fun x => x = a) < l.findIdx (fun x => x = b)) := by
  induction l with
  | nil => simp [firstDedup]
  | cons a rest ih =>
    show (a :: (firstDedup rest).filter (fun b => b ≠ a)).Pairwise _
    refine List.pairwise_cons.mpr ⟨?_, ?_⟩
    · intro b hb
      have hbne : b ≠ a := by simpa using (List.mem_filter.mp hb).2
      have h1 : (a :: rest).findIdx (fun x => x = a) = 0 := by
        simp [List.findIdx_cons]
      have h2 : (a :: rest).findIdx (fun x => x = b) =
          rest.findIdx (fun x => x = b) + 1 := by
        simp [List.findIdx_cons, Ne.symm hbne]
      rw [h1, h2]
      omega
    · refine List.Pairwise.imp_of_mem ?_ (List.Pairwise.filter _ ih)
      intro x y hx hy hrel
      have hxne : x ≠ a := by simpa using (List.mem_filter.mp hx).2
      have hyne : y ≠ a := by simpa using (List.mem_filter.mp hy).2
      have h1 : (a :: rest).findIdx (fun z => z = x) =
          rest.findIdx (fun z => z = x) + 1 := by
        simp [List.findIdx_cons, Ne.symm hxne]
      have h2 : (a :: rest).findIdx (fun z => z = y) =
          rest.findIdx (fun z => z = y) + 1 := by
        simp [List.findIdx_cons, Ne.symm hyne]
      rw [h1, h2]
      omega

theorem mostCommon1_eq_none_iff {α : Type} (es : List (α × ℕ)) :
    mostCommon1 es = none ↔ es = [] := by
  cases es with
  | nil => simp [mostCommon1]
  | cons e rest =>
    cases h : mostCommon1 rest <;> simp [mostCommon1, h]

theorem mostCommon1_split {α : Type} (es : List (α × ℕ)) (r : α × ℕ)
    (h : mostCommon1 es = some r) :
    ∃ es₁ es₂, es = es₁ ++ r :: es₂ ∧ (∀ x ∈ es₁, x.2 < r.2) ∧
      ∀ x ∈ es, x.2 ≤ r.2 := by
  induction es generalizing r with
  | nil => simp [mostCommon1] at h
  | cons e rest ih =>
    cases hb : mostCommon1 rest with
    | none =>
      have hrest : rest = [] := (mostCommon1_eq_none_iff rest).mp hb
      subst hrest
      have hre : e = r := by simpa [mostCommon1] using h
      subst hre
      exact ⟨[], [], rfl, by simp, by simp⟩
    | some b =>
      obtain ⟨r₁, r₂, hsplit, hlt, hle⟩ := ih b hb
      have h' : (if b.2 > e.2 then b else e) = r := by
        simpa [mostCommon1, hb] using h
      by_cases hbe : b.2 > e.2
      · rw [if_pos hbe] at h'
        subst h'
        refine ⟨e :: r₁, r₂, by simp [hsplit], ?_, ?_⟩
        · intro x hx
          rcases List.mem_cons.mp hx with rfl | hx'
          · exact hbe
          · exact hlt x hx'
        · intro x hx
          rcases List.mem_cons.mp hx with rfl | hx'
          · exact le_of_lt hbe
          · exact hle x hx'
      · rw [if_neg hbe] at h'
        subst h'
        push_neg at hbe
        refine ⟨[], rest, rfl, by simp, ?_⟩
        intro x hx
        rcases List.mem_cons.mp hx with rfl | hx'
        · exact le_refl _
        · exact (hle x hx').trans hbe

theorem counterItems_map_fst {α : Type} [DecidableEq α] (l : List α) :
    (counterItems l).map Prod.fst = firstDedup l := by
  unfold counterItems
  rw [List.map_map]
  show (firstDedup l).map (fun a => a) = firstDedup l
  exact List.map_id' (firstDedup l)

theorem counterItems_mem {α : Type} [DecidableEq α] (l : List α) (x : α × ℕ)
    (hx : x ∈ counterItems l) : x.1 ∈ l ∧ x.2 = l.count x.1 := by
  unfold counterItems at hx
  obtain ⟨a, ha, rfl⟩ := List.mem_map.mp hx
  exact ⟨(mem_firstDedup l a).mp ha, rfl⟩

theorem counterItems_mem_of {α : Type} [DecidableEq α] (l : List α) (c : α)
    (hc : c ∈ l) : (c, l.count c) ∈ counterItems l :=
  List.mem_map.mpr ⟨c, (mem_firstDedup l c).mpr hc, rfl⟩

theorem counterItems_ne_nil {α : Type} [DecidableEq α] (l : List α)
    (h : l ≠ []) : counterItems l ≠ [] := by
  cases l with
  | nil => exact absurd rfl h
  | cons a rest =>
    intro hc
    simp [counterItems, firstDedup] at hc

/-! ## Claim theorems: dominant category (C1) -/

/-- C1, counterexample.  With one negative record followed by one positive
record the two categories tie (count 1 each), yet the dominant sentiment is
`"négatif"`: `Counter.most_common` breaks ties by insertion order (first
category encountered in the records), not by the canonical
Positive-Neutral-Negative enumeration order. -/
theorem dominant_sentiment_cex :
    (summarise_results
      [{ text := "b".toList, clean_text := "b".toList,
         sentiment := "négatif", score := 1/2 },
       { text := "a".toList, clean_text := "a".toList,
         sentiment := "positif", score := 1/2 }]).map
      Summary.dominant_sentiment = Except.ok (some "négatif") ∧
    ([{ text := "b".toList, clean_text := "b".toList,
        sentiment := "négatif", score := (1:ℚ)/2 },
      { text := "a".toList, clean_text := "a".toList,
        sentiment := "positif", score := (1:ℚ)/2 }].map Record.sentiment)
      = ["négatif", "positif"] ∧
    (["négatif", "positif"] : List String).count "positif" =
      (["négatif", "positif"] : List String).count "négatif" ∧
    some "négatif" ≠ some "positif" := by
  refine ⟨by decide, by decide, by decide, by decide⟩

/-- C1, amended: for a non-empty list of valid records, the dominant
sentiment is a category with the maximum count; a tie between categories is
resolved in favour of the one whose first occurrence in the record list is
earliest (`Counter` insertion order), so the result depends on record
order, not on the fixed Positive-Neutral-Negative enumeration. -/
theorem dominant_sentiment_spec (rs : List Record)
    (hv : ∀ r ∈ rs, r.sentiment ∈ validSentiments) (hne : rs ≠ []) :
    ∃ s d, summarise_results rs = Except.ok s ∧
      s.dominant_sentiment = some d ∧
      (∀ c : String, (rs.map Record.sentiment).count c ≤
        (rs.map Record.sentiment).count d) ∧
      (∀ c : String, (rs.map Record.sentiment).count c =
          (rs.map Record.sentiment).count d →
        (rs.map Record.sentiment).findIdx (fun x => x = d) ≤
          (rs.map Record.sentiment).findIdx (fun x => x = c)) := by
  have hsne : rs.map Record.sentiment ≠ [] := by
    intro hc
    exact hne (List.map_eq_nil_iff.mp hc)
  have hcne : counterItems (rs.map Record.sentiment) ≠ [] :=
    counterItems_ne_nil _ hsne
  obtain ⟨r, hr⟩ : ∃ r, mostCommon1 (counterItems (rs.map Record.sentiment)) = some r := by
    cases h : mostCommon1 (counterItems (rs.map Record.sentiment)) with
    | none => exact absurd ((mostCommon1_eq_none_iff _).mp h) hcne
    | some r => exact ⟨r, rfl⟩
  obtain ⟨es₁, es₂, hsplit, hlt, hle⟩ := mostCommon1_split _ r hr
  have hrmem : r ∈ counterItems (rs.map Record.sentiment) := by
    rw [hsplit]
    simp
  obtain ⟨hd_mem, hd_count⟩ := counterItems_mem _ r hrmem
  refine ⟨_, r.1, summarise_results_ok rs hv, ?_, ?_, ?_⟩
  · show (mostCommon1 (counterItems (rs.map Record.sentiment))).map Prod.fst = some r.1
    rw [hr]
    rfl
  · intro c
    by_cases hc : c ∈ rs.map Record.sentiment
    · have hcmem := counterItems_mem_of _ c hc
      have := hle _ hcmem
      simpa [← hd_count] using this
    · rw [List.count_eq_zero.mpr hc]
      exact Nat.zero_le _
  · intro c hcc
    by_cases hcd : c = r.1
    · subst hcd
      exact le_refl _
    by_cases hc : c ∈ rs.map Record.sentiment
    · have hfd : firstDedup (rs.map Record.sentiment) =
          es₁.map Prod.fst ++ r.1 :: es₂.map Prod.fst := by
        rw [← counterItems_map_fst, hsplit]
        simp
      have hpw := firstDedup_pairwise (rs.map Record.sentiment)
      rw [hfd] at hpw
      have hcfd : c ∈ firstDedup (rs.map Record.sentiment) :=
        (mem_firstDedup _ c).mpr hc
      rw [hfd] at hcfd
      rcases List.mem_append.mp hcfd with hc1 | hc2
      · exfalso
        obtain ⟨x, hxmem, hx1⟩ := List.mem_map.mp hc1
        have hxfacts := counterItems_mem _ x (by
          rw [hsplit]
          exact List.mem_append_left _ hxmem)
        have hxlt := hlt x hxmem
        rw [hxfacts.2, hx1, hcc, ← hd_count] at hxlt
        exact lt_irrefl _ hxlt
      · rcases List.mem_cons.mp hc2 with hceq | hc3
        · exact absurd hceq hcd
        · have hrel := (List.pairwise_append.mp hpw).2.1
          exact le_of_lt (List.rel_of_pairwise_cons hrel hc3)
    · exfalso
      rw [List.count_eq_zero.mpr hc] at hcc
      have : r.1 ∉ rs.map Record.sentiment := List.count_eq_zero.mp (by
        rw [← hd_count] at hcc ⊢
        omega)
      exact this hd_mem

/-- C1, witness: two positive records and one negative one. -/
theorem dominant_sentiment_spec_witness :
    ∃ s d, summarise_results
        [{ text := "a".toList, clean_text := "a".toList,
           sentiment := "positif", score := 1/2 },
         { text := "b".toList, clean_text := "b".toList,
           sentiment := "positif", score := 1/2 },
         { text := "c".toList, clean_text := "c".toList,
           sentiment := "négatif", score := 1/2 }] = Except.ok s ∧
      s.dominant_sentiment = some d ∧
      ∀ c : String,
        ([{ text := "a".toList, clean_text := "a".toList,
            sentiment := "positif", score := (1:ℚ)/2 },
          { text := "b".toList, clean_text := "b".toList,
            sentiment := "positif", score := (1:ℚ)/2 },
          { text := "c".toList, clean_text := "c".toList,
            sentiment := "négatif", score := (1:ℚ)/2 }].map Record.sentiment).count c ≤
        ([{ text := "a".toList, clean_text := "a".toList,
            sentiment := "positif", score := (1:ℚ)/2 },
          { text := "b".toList, clean_text := "b".toList,
            sentiment := "positif", score := (1:ℚ)/2 },
          { text := "c".toList, clean_text := "c".toList,
            sentiment := "négatif", score := (1:ℚ)/2 }].map Record.sentiment).count d := by
  obtain ⟨s, d, hok, hdom, hmax, -⟩ := dominant_sentiment_spec
    [{ text := "a".toList, clean_text := "a".toList,
       sentiment := "positif", score := 1/2 },
     { text := "b".toList, clean_text := "b".toList,
       sentiment := "positif", score := 1/2 },
     { text := "c".toList, clean_text := "c".toList,
       sentiment := "négatif", score := 1/2 }] (by decide) (by simp)
  exact ⟨s, d, hok, hdom, hmax⟩
